import Mathlib

/-!
Verification of the simdict translation tool (`src/main.rs`).

The program core consists of:
* `parse_bing_response` — "Strategy A": regex extraction of a phonetic span and
  part-of-speech/translation span pairs from an HTML fragment;
* `parse_bing_response_fallback` — "Strategy B": substring extraction of the
  meta-description attribute value of a full HTML page;
* `fetch_from_bing` / `fetch_from_bing_fallback` — one HTTP GET each, status
  check, parse, and empty-result check;
* `fetch_translation` — ordered fallback chain ending in the "No Data" sentinel;
* the `main` wiring: the `on_search` closure's emptiness guard and the
  startup-argument trimming/dispatch.

The HTTP layer is external; a fetcher's network interaction is modelled by a
`FetchOutcome` parameter (network-level failure, or a response with status code
and body).  Strings are modelled as `List Char` where convenient; Rust `str`
byte indices returned by `find` are used by the source only to slice at the
very same match boundaries, so a character-level model is faithful.

The two regex patterns of the source are built from literal runs and lazy
`(.*?)` groups only (and `.` in the Rust regex crate does not match `'\n'`),
so their semantics is embedded directly: a backtracking matcher that tries
lazy-group contents shortest-first (`lazySplits`) below, scanning for the
leftmost match (`scanOpt`), exactly the leftmost-first priority order of the
regex crate on these patterns.
-/

set_option linter.unusedVariables false

/-- `litMatch p s` is true iff the literal `p` occurs at the start of `s`
(the character-level of Rust's `str::starts_with` / the literal runs of the
regex patterns). -/
def litMatch : List Char → List Char → Bool
  | [], _ => true
  | _ :: _, [] => false
  | p :: ps, c :: cs => if p = c then litMatch ps cs else false

/-- Character-level model of Rust `str::find(pattern)`: index of the first
occurrence of `p` in `s`, if any. -/
def findSublist (p : List Char) : List Char → Option Nat
  | [] => if litMatch p [] then some 0 else none
  | c :: cs =>
    if litMatch p (c :: cs) then some 0
    else (findSublist p cs).map (· + 1)

/-- All ways to split `s` as `content ++ delim ++ rest` where `content`
contains no `'\n'` (Rust regex `.` does not match a newline), ordered by
increasing `content` length — the priority order in which a lazy `.*?`
followed by the literal `delim` is tried by the regex engine. -/
def lazySplits (delim : List Char) : List Char → List (List Char × List Char)
  | [] => if litMatch delim [] then [([], [])] else []
  | c :: cs =>
    (if litMatch delim (c :: cs) then [([], (c :: cs).drop delim.length)] else [])
      ++ (if c = '\n' then [] else (lazySplits delim cs).map (fun p => (c :: p.1, p.2)))

/-- Scan for the leftmost position at which the position-matcher `m`
succeeds (regex unanchored leftmost search). -/
def scanOpt (m : List Char → Option α) : List Char → Option α
  | [] => m []
  | c :: cs =>
    match m (c :: cs) with
    | some v => some v
    | none => scanOpt m cs

/-! ### The literal runs of the two source regex patterns

`phonetic_pattern = "<span class=\"ht_attr\" lang=\".*?\">\\[(.*?)\\] </span>"`
`explain_pattern  = "<span class=\"ht_pos\">(.*?)</span><span class=\"ht_trs\">(.*?)</span>"`
-/

/-- Literal run before the first lazy group of the phonetic pattern. -/
def phonLit1 : List Char := "<span class=\"ht_attr\" lang=\"".data

/-- Literal run between the two lazy groups of the phonetic pattern: `">[`. -/
def phonMid : List Char := "\">[".data

/-- Literal run closing the phonetic pattern: `] </span>`. -/
def phonEnd : List Char := "] </span>".data

/-- Literal run opening the explain pattern. -/
def posLit : List Char := "<span class=\"ht_pos\">".data

/-- Literal run between the two capture groups of the explain pattern. -/
def expMid : List Char := "</span><span class=\"ht_trs\">".data

/-- Literal run closing the explain pattern. -/
def expEnd : List Char := "</span>".data

/-- Try the phonetic pattern anchored at the start of `s`; on success return
the single capture group (the text between `">[` and `] </span>`), trying the
two lazy groups shortest-first as the regex engine does. -/
def phonMatchAt (s : List Char) : Option (List Char) :=
  if litMatch phonLit1 s then
    (lazySplits phonMid (s.drop phonLit1.length)).findSome?
      (fun p1 => ((lazySplits phonEnd p1.2).head?).map (fun p2 => p2.1))
  else none

/-- `regex_search(phonetic_pattern, html)`: leftmost match, capture group 1.
(The source's `regex_search` returns the list of participating capture groups;
for this pattern a successful match always yields exactly one group, so the
source's `!caps.is_empty()` test is always true on success.) -/
def phoneticSearch (s : List Char) : Option (List Char) :=
  scanOpt phonMatchAt s

/-- Try the explain pattern anchored at the start of `s`; on success return
(capture 1, capture 2, rest of the string after the whole match). -/
def expMatchAt (s : List Char) : Option (List Char × List Char × List Char) :=
  if litMatch posLit s then
    (lazySplits expMid (s.drop posLit.length)).findSome?
      (fun p1 => ((lazySplits expEnd p1.2).head?).map (fun p2 => (p1.1, p2.1, p2.2)))
  else none

/-- Leftmost match of the explain pattern, with the remaining suffix. -/
def explainSearch (s : List Char) : Option (List Char × List Char × List Char) :=
  scanOpt expMatchAt s

/-- Fuelled iteration of `explainSearch` (each found match consumes at least
the pattern's literal runs, so `s.length + 1` fuel always suffices; proved in
`explainAll_eq_match` below). -/
def explainAllFuel : Nat → List Char → List (List Char × List Char)
  | 0, _ => []
  | n + 1, s =>
    match explainSearch s with
    | none => []
    | some (p, t, r) => (p, t) :: explainAllFuel n r

/-- `regex_search_all(explain_pattern, html)`: the list of (capture 1,
capture 2) pairs of all non-overlapping matches, leftmost first — Rust's
`captures_iter`.  (For this pattern every successful match has exactly the
two participating groups, so the source's `caps.len() >= 2` filter and the
`groups.is_empty()` filter inside `regex_search_all` are always passed.) -/
def explainAll (s : List Char) : List (List Char × List Char) :=
  explainAllFuel (s.length + 1) s

/-! ### Rust whitespace trimming (`str::trim`, Unicode `White_Space`) -/

/-- Rust `char::is_whitespace`: the Unicode `White_Space` property. -/
def isRustWhitespace (c : Char) : Bool :=
  c = '\t' || c = '\n' || c = '\x0b' || c = '\x0c' || c = '\r' || c = ' ' ||
  c = '\u0085' || c = '\u00A0' || c = '\u1680' ||
  (0x2000 ≤ c.toNat && c.toNat ≤ 0x200A) ||
  c = '\u2028' || c = '\u2029' || c = '\u202F' || c = '\u205F' || c = '\u3000'

/-- Leading-whitespace removal. -/
def rustTrimLeft (s : List Char) : List Char := s.dropWhile isRustWhitespace

/-- Trailing-whitespace removal. -/
def rustTrimRight (s : List Char) : List Char :=
  (s.reverse.dropWhile isRustWhitespace).reverse

/-- Rust `str::trim` at the character level. -/
def rustTrimList (s : List Char) : List Char := rustTrimRight (rustTrimLeft s)

/-- Rust `str::trim` on strings. -/
def rustTrim (s : String) : String := String.mk (rustTrimList s.data)

/-! ### The two extraction routines (Strategy A and Strategy B) -/

/-- The phonetic part of the `result` string of `parse_bing_response` after
its phonetic step: `· [{caps[0].trim()}]\n` when the phonetic pattern
matched (a successful match always has its one capture group, so the
source's `!caps.is_empty()` test passes), empty otherwise. -/
def phonPart (s : List Char) : List Char :=
  match phoneticSearch s with
  | some cap => "· [".data ++ rustTrimList cap ++ "]\n".data
  | none => []

/-- The `explains` vector of `parse_bing_response`: one `· {pos} {trs}` line
per explain-pattern match (each match has both its capture groups, so the
source's `caps.len() >= 2` test passes). -/
def explainLines (s : List Char) : List (List Char) :=
  (explainAll s).map (fun pt => "· ".data ++ pt.1 ++ " ".data ++ pt.2)

/-- The final step of `parse_bing_response`: `if result.ends_with('\n') {
result.pop(); }`. -/
def popNewline (result : List Char) : List Char :=
  if result.getLast? = some '\n' then result.dropLast else result

/-- `parse_bing_response` (Strategy A), `src/main.rs` lines 147–185:
build the phonetic line if the phonetic pattern matches, collect one line
per explain-pattern match, return `None` if neither was found, else
concatenate (each explain line followed by a newline) and pop the trailing
newline. -/
def parse_bing_response (html : String) : Option String :=
  if (explainLines html.data).isEmpty && (phonPart html.data).isEmpty then
    none
  else
    some (String.mk (popNewline
      (phonPart html.data ++
        (((explainLines html.data)).map (fun e => e ++ ['\n'])).flatten)))

/-- Start marker of Strategy B: `<meta name="description" content="`. -/
def metaStart : List Char := "<meta name=\"description\" content=\"".data

/-- Closing delimiter of Strategy B: `" />`. -/
def metaEnd : List Char := "\" />".data

/-- `parse_bing_response_fallback` (Strategy B), `src/main.rs` lines 224–237:
find the start marker, then the next closing delimiter after it, and return
the text in between verbatim; `None` if either search fails.  (Rust's `find`
returns byte offsets; the source only uses them to slice at those same match
boundaries, so the character-level model is equivalent.) -/
def parse_bing_response_fallback (html : String) : Option String :=
  match findSublist metaStart html.data with
  | none => none
  | some startPos =>
    let afterStart := html.data.drop (startPos + metaStart.length)
    match findSublist metaEnd afterStart with
    | none => none
    | some endPos => some (String.mk (afterStart.take endPos))

/-! ### The fetch layer

The HTTP client is an external collaborator; each fetcher's network
interaction is a `FetchOutcome`: either a network-level failure (client
build / send / body-read error, `reqwest` errors propagated by `?`), or a
response with a status code and a body.  The four distinct `anyhow!` error
messages of the source are modelled by the structured `FetchErr`. -/

/-- An HTTP response as seen by the fetchers: status code plus body text. -/
structure HttpResponse where
  status : Nat
  body : String
deriving DecidableEq

/-- Outcome of one endpoint's HTTP interaction. -/
inductive FetchOutcome where
  /-- client build / send / body-read failure (propagated by `?`) -/
  | netErr (msg : String)
  /-- a response was obtained -/
  | resp (r : HttpResponse)
deriving DecidableEq

/-- The fetchers' error cases, one per `anyhow!` site in the source. -/
inductive FetchErr where
  /-- a `reqwest` error propagated by `?` -/
  | net (msg : String)
  /-- `"API returned status: {}"` -/
  | badStatus (code : Nat)
  /-- `"parse_bing_response failed"` / `"parse_bing_response_fallback failed"` -/
  | parseFailed
  /-- `"No valid data from API"` -/
  | noValidData
deriving DecidableEq

deriving instance DecidableEq for Except

/-- `reqwest::StatusCode::is_success`: `200 ≤ code < 300`. -/
def statusIsSuccess (code : Nat) : Bool := 200 ≤ code && code < 300

/-- `fetch_from_bing`, `src/main.rs` lines 86–115: status check, Strategy A
parse, empty-result check.  `word` only enters the request URL, which is part
of the modelled-out HTTP interaction. -/
def fetch_from_bing (word : String) (o : FetchOutcome) : Except FetchErr String :=
  match o with
  | .netErr m => .error (.net m)
  | .resp r =>
    if !statusIsSuccess r.status then .error (.badStatus r.status)
    else
      match parse_bing_response r.body with
      | none => .error .parseFailed
      | some result =>
        if result = "" then .error .noValidData else .ok result

/-- `fetch_from_bing_fallback`, `src/main.rs` lines 117–145: same shape with
Strategy B. -/
def fetch_from_bing_fallback (word : String) (o : FetchOutcome) : Except FetchErr String :=
  match o with
  | .netErr m => .error (.net m)
  | .resp r =>
    if !statusIsSuccess r.status then .error (.badStatus r.status)
    else
      match parse_bing_response_fallback r.body with
      | none => .error .parseFailed
      | some result =>
        if result = "" then .error .noValidData else .ok result

/-- `fetch_translation`, `src/main.rs` lines 60–84: try the primary endpoint,
on error try the fallback endpoint, on error return `Ok("No Data")`. -/
def fetch_translation (word : String) (primary fallbackOutcome : FetchOutcome) :
    Except FetchErr String :=
  match fetch_from_bing word primary with
  | .ok result => .ok result
  | .error _ =>
    match fetch_from_bing_fallback word fallbackOutcome with
    | .ok result => .ok result
    | .error _ => .ok "No Data"

/-! ### The `main` wiring (dispatch guards), `src/main.rs` lines 10–53 -/

/-- The `on_search` closure: if `word.trim().is_empty()` it returns without
fetching; otherwise `fetch_translation(&word)` is called with the *raw*
`word`.  `some q` means a fetch is dispatched with query `q`. -/
def on_search_dispatch (word : String) : Option String :=
  if rustTrim word = "" then none else some word

/-- `initial_search`: `argv[1].trim()` when a positional argument is present,
else the empty string. -/
def initial_search (argv : List String) : String :=
  match argv with
  | _ :: a :: _ => rustTrim a
  | _ => ""

/-- The startup path: a background `fetch_translation(&initial_search)` is
spawned iff `initial_search` is non-empty; `some q` means a fetch is
dispatched with query `q`. -/
def startup_dispatch (argv : List String) : Option String :=
  let s := initial_search argv
  if s = "" then none else some s

/-- Second half of `expMid`: the opening literal of the `ht_trs` span. -/
def trsLit : List Char := "<span class=\"ht_trs\">".data


/-- `'] '`, the part of `phonEnd` before its `</span>`. -/
def phonEndPre : List Char := "] ".data


/-! ### Well-formed fragments (the shapes the spec quantifies over) -/

/-- A rendered phonetic span
`<span class="ht_attr" lang="{lang}">[{ph}] </span>`. -/
def phonSpanChars (lang ph : List Char) : List Char :=
  phonLit1 ++ lang ++ phonMid ++ ph ++ phonEnd

/-- A rendered pos/trs span pair
`<span class="ht_pos">{pos}</span><span class="ht_trs">{trs}</span>`. -/
def pairSpanChars (pos trs : List Char) : List Char :=
  posLit ++ pos ++ expMid ++ trs ++ expEnd

/-- One pos/trs pair `(sep, pos, trs)` rendered with its leading filler
segment `sep`. -/
def pairBlock (e : List Char × List Char × List Char) : List Char :=
  e.1 ++ pairSpanChars e.2.1 e.2.2

/-- A well-formed HTML fragment: filler, an optional phonetic span, pos/trs
span pairs each preceded by filler, trailing filler. -/
def fragment (pre : List Char) (phon : Option (List Char × List Char))
    (pairs : List (List Char × List Char × List Char)) (post : List Char) :
    List Char :=
  pre ++ (match phon with | some lp => phonSpanChars lp.1 lp.2 | none => []) ++
    (pairs.map pairBlock).flatten ++ post

/-- Newline-join with no trailing newline. -/
def joinLines : List (List Char) → List Char
  | [] => []
  | [l] => l
  | l :: l' :: ls => l ++ '\n' :: joinLines (l' :: ls)

/-- Well-formedness of one rendered pos/trs pair: no `'<'` in its filler, and
contents free of `'<'` and newlines. -/
def PairOk (e : List Char × List Char × List Char) : Prop :=
  '<' ∉ e.1 ∧ '<' ∉ e.2.1 ∧ '\n' ∉ e.2.1 ∧ '<' ∉ e.2.2 ∧ '\n' ∉ e.2.2

instance : DecidablePred PairOk := fun e => by unfold PairOk; infer_instance

/-! ### Declarative reading of "the pattern matches somewhere"

A regex of the form `L1 (.*?) L2 (.*?) L3` (with `.` not matching `'\n'`)
matches inside `s` iff `s` contains `L1`, `L2`, `L3` in order with
newline-free text between them.  These predicates state exactly that, and
are proved equivalent to the executable searches. -/

/-- The phonetic pattern matches somewhere in `s`. -/
def PhonPat (s : List Char) : Prop :=
  ∃ a lang ph b, s = a ++ phonLit1 ++ lang ++ phonMid ++ ph ++ phonEnd ++ b
    ∧ '\n' ∉ lang ∧ '\n' ∉ ph

/-- The explain pattern matches somewhere in `s`. -/
def ExpPat (s : List Char) : Prop :=
  ∃ a pos trs b, s = a ++ posLit ++ pos ++ expMid ++ trs ++ expEnd ++ b
    ∧ '\n' ∉ pos ∧ '\n' ∉ trs

/-! ### Basic properties of `litMatch` -/

/-- `litMatch` is the take-and-compare characterization of "begins with". -/
theorem litMatch_iff_take (p s : List Char) :
    litMatch p s = true ↔ s.take p.length = p := by
  induction p generalizing s with
  | nil => simp [litMatch]
  | cons p ps ih =>
    cases s with
    | nil => simp [litMatch]
    | cons c cs =>
      simp only [litMatch, List.length_cons, List.take_succ_cons, List.cons.injEq]
      by_cases h : p = c
      · subst h
        simp [ih]
      · simp only [if_neg h, Bool.false_eq_true, false_iff, not_and]
        intro hc
        exact absurd hc.symm h

/-- A literal matches at the front of itself followed by anything. -/
theorem litMatch_append_self (p x : List Char) : litMatch p (p ++ x) = true :=
  (litMatch_iff_take p (p ++ x)).mpr (List.take_left p x)

theorem litMatch_of_eq_append {p s x : List Char} (h : s = p ++ x) :
    litMatch p s = true := h ▸ litMatch_append_self p x

/-- A successful literal match decomposes the string. -/
theorem eq_append_of_litMatch {p s : List Char} (h : litMatch p s = true) :
    s = p ++ s.drop p.length := by
  conv_lhs => rw [← List.take_append_drop p.length s]
  rw [(litMatch_iff_take p s).mp h]

/-- Mismatch on the first character refutes a literal match. -/
theorem litMatch_false_head {p : List Char} {h0 : Char} (hp : p.head? = some h0)
    {c : Char} {cs : List Char} (hc : c ≠ h0) : litMatch p (c :: cs) = false := by
  cases p with
  | nil => simp at hp
  | cons p0 ps =>
    simp only [List.head?_cons, Option.some.injEq] at hp
    subst hp
    simp only [litMatch]
    rw [if_neg (fun h => hc h.symm)]

theorem litMatch_nil_false {p0 : Char} {ps : List Char} :
    litMatch (p0 :: ps) [] = false := rfl

/-- If the shorter literal `a` disagrees with the front of `b`, then `a` does
not match at the front of `b ++ x` for any `x`. -/
theorem litMatch_append_false_of_short {a b : List Char} (x : List Char)
    (hlen : a.length ≤ b.length) (hne : b.take a.length ≠ a) :
    litMatch a (b ++ x) = false := by
  rw [← Bool.not_eq_true, litMatch_iff_take]
  rw [List.take_append_of_le_length hlen]
  exact hne

/-- If the front of the longer literal `a` disagrees with all of `b`, then `a`
does not match at the front of `b ++ x` for any `x`. -/
theorem litMatch_append_false_of_long {a b : List Char} (x : List Char)
    (hlen : b.length ≤ a.length) (hne : a.take b.length ≠ b) :
    litMatch a (b ++ x) = false := by
  rw [← Bool.not_eq_true, litMatch_iff_take]
  intro h
  apply hne
  have h2 := congrArg (List.take b.length) h
  rw [List.take_take, Nat.min_eq_left hlen] at h2
  rw [← h2]
  exact List.take_left b x

/-! ### Properties of `lazySplits` -/

/-- Soundness: every produced split really decomposes the string, with a
newline-free content part. -/
theorem lazySplits_sound {d s u r : List Char}
    (h : (u, r) ∈ lazySplits d s) : s = u ++ d ++ r ∧ '\n' ∉ u := by
  induction s generalizing u r with
  | nil =>
    unfold lazySplits at h
    split at h
    · next hd =>
      have hd' : d = [] := by
        have := (litMatch_iff_take d []).mp hd
        simpa using this.symm
      simp only [List.mem_singleton, Prod.mk.injEq] at h
      obtain ⟨hu, hr⟩ := h
      subst hu; subst hr
      simp [hd']
    · simp at h
  | cons c cs ih =>
    unfold lazySplits at h
    rw [List.mem_append] at h
    rcases h with h | h
    · split at h
      · next hd =>
        simp only [List.mem_singleton, Prod.mk.injEq] at h
        obtain ⟨hu, hr⟩ := h
        subst hu; subst hr
        refine ⟨?_, by simp⟩
        conv_lhs => rw [eq_append_of_litMatch hd]
        simp
      · simp at h
    · split at h
      · simp at h
      · next hc =>
        rw [List.mem_map] at h
        obtain ⟨⟨u', r'⟩, hmem, heq⟩ := h
        obtain ⟨hs, hnl⟩ := ih hmem
        cases heq
        refine ⟨by simp [hs], ?_⟩
        intro hmem'
        rcases List.mem_cons.mp hmem' with h1 | h1
        · exact hc h1.symm
        · exact hnl h1

/-- The split at a position where the delimiter matches is produced. -/
theorem lazySplits_here {d s : List Char} (h : litMatch d s = true) :
    ([], s.drop d.length) ∈ lazySplits d s := by
  cases s with
  | nil =>
    unfold lazySplits
    rw [if_pos h]
    simp
  | cons c cs =>
    unfold lazySplits
    rw [if_pos h]
    simp

/-- Completeness: every newline-free decomposition is produced. -/
theorem lazySplits_complete {d u r : List Char} (hnl : '\n' ∉ u) :
    (u, r) ∈ lazySplits d (u ++ d ++ r) := by
  induction u with
  | nil =>
    have := lazySplits_here (d := d) (s := d ++ r) (litMatch_append_self d r)
    simpa using this
  | cons c u' ih =>
    have hc : c ≠ '\n' := fun h => hnl (by simp [h])
    have hnl' : '\n' ∉ u' := fun h => hnl (by simp [h])
    show (c :: u', r) ∈ lazySplits d (c :: (u' ++ d ++ r))
    unfold lazySplits
    rw [List.mem_append]
    right
    rw [if_neg hc]
    exact List.mem_map.mpr ⟨(u', r), ih hnl', rfl⟩

/-- When the delimiter's first character does not occur in `u`, the split at
`u` is the first one produced (shortest-content priority). -/
theorem lazySplits_head {d0 : Char} {d d' u r : List Char} (hd : d = d0 :: d')
    (hu : d0 ∉ u) (hnl : '\n' ∉ u) :
    (lazySplits d (u ++ d ++ r)).head? = some (u, r) := by
  induction u with
  | nil =>
    have hm : litMatch d (d ++ r) = true := litMatch_append_self d r
    simp only [List.nil_append]
    cases hdr : d ++ r with
    | nil =>
      exfalso
      subst hd
      simp at hdr
    | cons c cs =>
      unfold lazySplits
      rw [← hdr, if_pos hm]
      rw [hdr]
      simp only [List.cons_append, List.head?_cons]
      rw [← hdr, List.drop_left]
  | cons c u' ih =>
    have hc : c ≠ '\n' := fun h => hnl (by simp [h])
    have hcd : c ≠ d0 := fun h => hu (by simp [h])
    have hu' : d0 ∉ u' := fun h => hu (by simp [h])
    have hnl' : '\n' ∉ u' := fun h => hnl (by simp [h])
    show (lazySplits d (c :: (u' ++ d ++ r))).head? = some (c :: u', r)
    unfold lazySplits
    have hlm : litMatch d (c :: (u' ++ d ++ r)) = false := by
      rw [hd]
      exact litMatch_false_head (by simp) hcd
    rw [hlm]
    simp only [Bool.false_eq_true, if_false, List.nil_append]
    rw [if_neg hc]
    rw [List.head?_map, ih hu' hnl']
    rfl

/-! ### Properties of `scanOpt` -/

/-- A match at the current position is returned immediately. -/
theorem scanOpt_eq_of_match {m : List Char → Option α} {s : List Char} {v : α}
    (h : m s = some v) : scanOpt m s = some v := by
  cases s with
  | nil => simpa [scanOpt] using h
  | cons c cs => simp [scanOpt, h]

/-- The scan fails iff the matcher fails at every suffix. -/
theorem scanOpt_eq_none_iff {m : List Char → Option α} {s : List Char} :
    scanOpt m s = none ↔ ∀ t, t <:+ s → m t = none := by
  induction s with
  | nil =>
    simp only [scanOpt]
    constructor
    · intro h t ht
      rw [List.suffix_nil.mp ht]
      exact h
    · intro h
      exact h [] List.nil_suffix
  | cons c cs ih =>
    simp only [scanOpt]
    cases hm : m (c :: cs) with
    | some v =>
      simp only [reduceCtorEq, false_iff, not_forall]
      exact ⟨c :: cs, List.suffix_refl _, by simp [hm]⟩
    | none =>
      simp only [ih]
      constructor
      · intro h t ht
        rcases List.suffix_cons_iff.mp ht with h1 | h1
        · rw [h1]; exact hm
        · exact h t h1
      · intro h t ht
        exact h t (ht.trans (List.suffix_cons c cs))

/-- A successful scan comes from a successful match at some suffix. -/
theorem scanOpt_eq_some_exists {m : List Char → Option α} {s : List Char} {v : α}
    (h : scanOpt m s = some v) : ∃ t, t <:+ s ∧ m t = some v := by
  induction s with
  | nil => exact ⟨[], List.suffix_refl _, by simpa [scanOpt] using h⟩
  | cons c cs ih =>
    rw [scanOpt] at h
    cases hm : m (c :: cs) with
    | some w =>
      rw [hm] at h
      cases h
      exact ⟨c :: cs, List.suffix_refl _, hm⟩
    | none =>
      rw [hm] at h
      obtain ⟨t, ht, hmt⟩ := ih h
      exact ⟨t, ht.trans (List.suffix_cons c cs), hmt⟩

/-- Scanning may skip a leading segment at whose positions the matcher fails. -/
theorem scanOpt_skip_seg {m : List Char → Option α} {a s : List Char}
    (h : ∀ i, i < a.length → m (a.drop i ++ s) = none) :
    scanOpt m (a ++ s) = scanOpt m s := by
  induction a with
  | nil => rfl
  | cons c cs ih =>
    show scanOpt m (c :: (cs ++ s)) = scanOpt m s
    rw [scanOpt]
    have h0 := h 0 (by simp)
    simp only [List.drop_zero] at h0
    rw [show (c :: cs) ++ s = c :: (cs ++ s) from rfl] at h0
    rw [h0]
    exact ih (fun i hi => by simpa using h (i + 1) (by simpa using hi))

/-- If some element of `l` succeeds, `findSome?` succeeds. -/
theorem findSome?_ne_none_of_mem {α β : Type} {l : List α} {f : α → Option β}
    {a : α} (ha : a ∈ l) (hfa : f a ≠ none) : l.findSome? f ≠ none := by
  induction l with
  | nil => simp at ha
  | cons b l ih =>
    rw [List.findSome?_cons]
    cases hfb : f b with
    | some v => simp
    | none =>
      rcases List.mem_cons.mp ha with h1 | h1
      · subst h1; exact absurd hfb hfa
      · exact ih h1

/-! ### The anchored matchers: failure, progress, and success -/

theorem mem_of_head?_eq_some {α : Type} {l : List α} {a : α}
    (h : l.head? = some a) : a ∈ l := by
  cases l with
  | nil => simp at h
  | cons b bs =>
    simp only [List.head?_cons, Option.some.injEq] at h
    simp [h.symm]

theorem phonMatchAt_of_no_lit {s : List Char}
    (h : litMatch phonLit1 s = false) : phonMatchAt s = none := by
  simp [phonMatchAt, h]

theorem expMatchAt_of_no_lit {s : List Char}
    (h : litMatch posLit s = false) : expMatchAt s = none := by
  simp [expMatchAt, h]

/-- A split's rest is strictly shorter than the input (non-empty delimiter). -/
theorem lazySplits_rest_lt {d s u r : List Char} (hd : d ≠ [])
    (h : (u, r) ∈ lazySplits d s) : r.length < s.length := by
  obtain ⟨hs, -⟩ := lazySplits_sound h
  have : s.length = u.length + d.length + r.length := by simp [hs]; omega
  have : 0 < d.length := List.length_pos.mpr hd
  omega

/-- A successful anchored explain match consumes part of the input. -/
theorem expMatchAt_rest_lt {s p t r : List Char}
    (h : expMatchAt s = some (p, t, r)) : r.length < s.length := by
  unfold expMatchAt at h
  by_cases hl : litMatch posLit s = true
  · rw [if_pos hl] at h
    obtain ⟨p1, hp1mem, hp1⟩ := List.exists_of_findSome?_eq_some h
    cases hhead : (lazySplits expEnd p1.2).head? with
    | none => rw [hhead] at hp1; simp at hp1
    | some p2 =>
      rw [hhead] at hp1
      simp only [Option.map_some', Option.some.injEq, Prod.mk.injEq] at hp1
      obtain ⟨hp, hrest⟩ := hp1
      have h2 := lazySplits_rest_lt (d := expEnd) (by decide)
        (mem_of_head?_eq_some hhead)
      have h1 := lazySplits_rest_lt (d := expMid) (by decide) hp1mem
      have h3 : (s.drop posLit.length).length ≤ s.length := by
        simp [List.length_drop]
      have hr : r = p2.2 := by
        obtain ⟨-, hrr⟩ := hrest
        exact hrr.symm
      rw [hr]
      omega
  · rw [if_neg hl] at h
    simp at h

/-- A successful explain search consumes part of the input. -/
theorem explainSearch_rest_lt {s p t r : List Char}
    (h : explainSearch s = some (p, t, r)) : r.length < s.length := by
  obtain ⟨u, hu, hm⟩ := scanOpt_eq_some_exists h
  have h1 := expMatchAt_rest_lt hm
  have h2 := List.IsSuffix.length_le hu
  omega

/-- The fuel in `explainAll` is irrelevant as long as it exceeds the input
length. -/
theorem explainAllFuel_congr : ∀ {n m : Nat} {s : List Char},
    s.length < n → s.length < m → explainAllFuel n s = explainAllFuel m s := by
  intro n
  induction n with
  | zero => intro m s h; omega
  | succ n ih =>
    intro m s hn hm
    cases m with
    | zero => omega
    | succ m =>
      rw [explainAllFuel, explainAllFuel]
      cases hsearch : explainSearch s with
      | none => rfl
      | some v =>
        obtain ⟨p, t, r⟩ := v
        have hlt := explainSearch_rest_lt hsearch
        exact congrArg _ (ih (by omega) (by omega))

/-- `explainAll` iterates `explainSearch` past each match's end, exactly as
`captures_iter` resumes after the previous match. -/
theorem explainAll_eq_match (s : List Char) :
    explainAll s = match explainSearch s with
      | none => []
      | some (p, t, r) => (p, t) :: explainAll r := by
  unfold explainAll
  rw [explainAllFuel]
  cases hsearch : explainSearch s with
  | none => rfl
  | some v =>
    obtain ⟨p, t, r⟩ := v
    have hlt := explainSearch_rest_lt hsearch
    exact congrArg _ (explainAllFuel_congr (by omega) (by omega))

theorem explainAll_of_none {s : List Char} (h : explainSearch s = none) :
    explainAll s = [] := by
  rw [explainAll_eq_match, h]

theorem explainAll_of_some {s p t r : List Char}
    (h : explainSearch s = some (p, t, r)) :
    explainAll s = (p, t) :: explainAll r := by
  rw [explainAll_eq_match, h]

/-- Two strings with the same leftmost explain match have the same match
list. -/
theorem explainAll_congr {s1 s2 : List Char}
    (h : explainSearch s1 = explainSearch s2) : explainAll s1 = explainAll s2 := by
  rw [explainAll_eq_match, explainAll_eq_match, h]

/-! ### Scanning skips segments that cannot start a match

Both patterns' opening literals start with `'<'`, so a matcher can only fire
at a `'<'`.  The following lemmas let the leftmost scan jump over filler
segments without `'<'` and over the other pattern's literal runs. -/

theorem noMatch_clean {α : Type} {m : List Char → Option α} {L : List Char}
    (hm : ∀ t, litMatch L t = false → m t = none) (hL : L.head? = some '<')
    {a : List Char} (ha : '<' ∉ a) (s : List Char) :
    ∀ i, i < a.length → m (a.drop i ++ s) = none := by
  intro i hi
  rw [List.drop_eq_getElem_cons hi, List.cons_append]
  apply hm
  apply litMatch_false_head hL
  intro h
  exact ha (h ▸ List.getElem_mem hi)

theorem scanOpt_skip_clean {α : Type} {m : List Char → Option α} {L : List Char}
    (hm : ∀ t, litMatch L t = false → m t = none) (hL : L.head? = some '<')
    {a : List Char} (ha : '<' ∉ a) (s : List Char) :
    scanOpt m (a ++ s) = scanOpt m s :=
  scanOpt_skip_seg (noMatch_clean hm hL ha s)

theorem scanOpt_skip_lit {α : Type} {m : List Char → Option α} {L : List Char}
    (hm : ∀ t, litMatch L t = false → m t = none) (hL : L.head? = some '<')
    {b : List Char} (hb : ∀ X, litMatch L (b ++ X) = false)
    (hbt : '<' ∉ b.tail) (s : List Char) :
    scanOpt m (b ++ s) = scanOpt m s := by
  apply scanOpt_skip_seg
  intro i hi
  cases i with
  | zero => simpa using hm _ (hb s)
  | succ j =>
    have hjt : j < b.tail.length := by
      cases b with
      | nil => simp at hi
      | cons c cs => simp at hi ⊢; omega
    have hdrop : b.drop (j + 1) = b.tail.drop j := by
      cases b with
      | nil => simp
      | cons c cs => rfl
    rw [hdrop]
    exact noMatch_clean hm hL hbt s j hjt

theorem expMid_eq : expMid = expEnd ++ trsLit := by decide

theorem phonEnd_eq : phonEnd = phonEndPre ++ expEnd := by decide

theorem posLit_head : posLit.head? = some '<' := by decide

theorem phonLit1_head : phonLit1.head? = some '<' := by decide

theorem no_lt_posLit_tail : '<' ∉ posLit.tail := by decide

theorem no_lt_phonLit1_tail : '<' ∉ phonLit1.tail := by decide

theorem no_lt_expEnd_tail : '<' ∉ expEnd.tail := by decide

theorem no_lt_trsLit_tail : '<' ∉ trsLit.tail := by decide

theorem no_lt_phonMid : '<' ∉ phonMid := by decide

theorem no_lt_phonEndPre : '<' ∉ phonEndPre := by decide

theorem posLit_no_phonLit1 (X : List Char) : litMatch posLit (phonLit1 ++ X) = false :=
  litMatch_append_false_of_short X (by decide) (by decide)

theorem posLit_no_expEnd (X : List Char) : litMatch posLit (expEnd ++ X) = false :=
  litMatch_append_false_of_long X (by decide) (by decide)

theorem phonLit1_no_posLit (X : List Char) : litMatch phonLit1 (posLit ++ X) = false :=
  litMatch_append_false_of_long X (by decide) (by decide)

theorem phonLit1_no_expEnd (X : List Char) : litMatch phonLit1 (expEnd ++ X) = false :=
  litMatch_append_false_of_long X (by decide) (by decide)

theorem phonLit1_no_trsLit (X : List Char) : litMatch phonLit1 (trsLit ++ X) = false :=
  litMatch_append_false_of_long X (by decide) (by decide)

theorem findSome?_of_head?_some {α β : Type} {l : List α} {x : α}
    (h : l.head? = some x) {f : α → Option β} {v : β} (hf : f x = some v) :
    l.findSome? f = some v := by
  cases l with
  | nil => simp at h
  | cons b bs =>
    simp only [List.head?_cons, Option.some.injEq] at h
    subst h
    rw [List.findSome?_cons, hf]

/-! ### Anchored matches at a rendered span -/

/-- The phonetic pattern, matched at the start of a rendered phonetic span,
captures exactly the span's phonetic content. -/
theorem phonMatchAt_at {lang ph rest : List Char}
    (hlq : '"' ∉ lang) (hln : '\n' ∉ lang) (hpb : ']' ∉ ph) (hpn : '\n' ∉ ph) :
    phonMatchAt (phonLit1 ++ (lang ++ (phonMid ++ (ph ++ (phonEnd ++ rest))))) =
      some ph := by
  unfold phonMatchAt
  rw [if_pos (litMatch_append_self phonLit1 _)]
  rw [List.drop_left]
  have h1 : lang ++ (phonMid ++ (ph ++ (phonEnd ++ rest))) =
      lang ++ phonMid ++ (ph ++ (phonEnd ++ rest)) := by
    simp [List.append_assoc]
  rw [h1]
  apply findSome?_of_head?_some
    (lazySplits_head (show phonMid = '"' :: ">[".data from by decide) hlq hln)
  have h2 : ph ++ (phonEnd ++ rest) = ph ++ phonEnd ++ rest := by
    simp [List.append_assoc]
  simp only [h2]
  rw [lazySplits_head (show phonEnd = ']' :: " </span>".data from by decide) hpb hpn]
  rfl

/-- The explain pattern, matched at the start of a rendered pair span,
captures exactly the span's pos and trs contents and resumes after it. -/
theorem expMatchAt_at {pos trs rest : List Char}
    (hp : '<' ∉ pos) (hpn : '\n' ∉ pos) (ht : '<' ∉ trs) (htn : '\n' ∉ trs) :
    expMatchAt (posLit ++ (pos ++ (expMid ++ (trs ++ (expEnd ++ rest))))) =
      some (pos, trs, rest) := by
  unfold expMatchAt
  rw [if_pos (litMatch_append_self posLit _)]
  rw [List.drop_left]
  have h1 : pos ++ (expMid ++ (trs ++ (expEnd ++ rest))) =
      pos ++ expMid ++ (trs ++ (expEnd ++ rest)) := by
    simp [List.append_assoc]
  rw [h1]
  apply findSome?_of_head?_some
    (lazySplits_head (show expMid = '<' :: "/span><span class=\"ht_trs\">".data
      from by decide) hp hpn)
  have h2 : trs ++ (expEnd ++ rest) = trs ++ expEnd ++ rest := by
    simp [List.append_assoc]
  simp only [h2]
  rw [lazySplits_head (show expEnd = '<' :: "/span>".data from by decide) ht htn]
  rfl

/-! ### Leftmost searches over rendered fragments -/

theorem phoneticSearch_phonSpan {lang ph : List Char} (rest : List Char)
    (hlq : '"' ∉ lang) (hln : '\n' ∉ lang) (hpb : ']' ∉ ph) (hpn : '\n' ∉ ph) :
    phoneticSearch (phonSpanChars lang ph ++ rest) = some ph := by
  apply scanOpt_eq_of_match
  have h : phonSpanChars lang ph ++ rest =
      phonLit1 ++ (lang ++ (phonMid ++ (ph ++ (phonEnd ++ rest)))) := by
    simp [phonSpanChars, List.append_assoc]
  rw [h]
  exact phonMatchAt_at hlq hln hpb hpn

theorem explainSearch_pairSpan {pos trs : List Char} (rest : List Char)
    (hp : '<' ∉ pos) (hpn : '\n' ∉ pos) (ht : '<' ∉ trs) (htn : '\n' ∉ trs) :
    explainSearch (pairSpanChars pos trs ++ rest) = some (pos, trs, rest) := by
  apply scanOpt_eq_of_match
  have h : pairSpanChars pos trs ++ rest =
      posLit ++ (pos ++ (expMid ++ (trs ++ (expEnd ++ rest)))) := by
    simp [pairSpanChars, List.append_assoc]
  rw [h]
  exact expMatchAt_at hp hpn ht htn

theorem explainSearch_skip_clean {a s : List Char} (ha : '<' ∉ a) :
    explainSearch (a ++ s) = explainSearch s :=
  scanOpt_skip_clean (fun t ht => expMatchAt_of_no_lit ht) posLit_head ha s

theorem phoneticSearch_skip_clean {a s : List Char} (ha : '<' ∉ a) :
    phoneticSearch (a ++ s) = phoneticSearch s :=
  scanOpt_skip_clean (fun t ht => phonMatchAt_of_no_lit ht) phonLit1_head ha s

/-- The explain pattern cannot start anywhere inside a phonetic span. -/
theorem explainSearch_skip_phonSpan {lang ph s : List Char}
    (hl : '<' ∉ lang) (hp : '<' ∉ ph) :
    explainSearch (phonSpanChars lang ph ++ s) = explainSearch s := by
  have hm : ∀ t, litMatch posLit t = false → expMatchAt t = none :=
    fun t ht => expMatchAt_of_no_lit ht
  have h : phonSpanChars lang ph ++ s =
      phonLit1 ++ (lang ++ (phonMid ++ (ph ++ (phonEndPre ++ (expEnd ++ s))))) := by
    simp [phonSpanChars, phonEnd_eq, List.append_assoc]
  show scanOpt expMatchAt _ = scanOpt expMatchAt s
  rw [h]
  rw [scanOpt_skip_lit hm posLit_head posLit_no_phonLit1 no_lt_phonLit1_tail]
  rw [scanOpt_skip_clean hm posLit_head hl]
  rw [scanOpt_skip_clean hm posLit_head no_lt_phonMid]
  rw [scanOpt_skip_clean hm posLit_head hp]
  rw [scanOpt_skip_clean hm posLit_head no_lt_phonEndPre]
  rw [scanOpt_skip_lit hm posLit_head posLit_no_expEnd no_lt_expEnd_tail]

/-- The phonetic pattern cannot start anywhere inside a pos/trs pair block. -/
theorem phoneticSearch_skip_pairBlock {e : List Char × List Char × List Char}
    {s : List Char} (hsep : '<' ∉ e.1) (hpos : '<' ∉ e.2.1) (htrs : '<' ∉ e.2.2) :
    phoneticSearch (pairBlock e ++ s) = phoneticSearch s := by
  have hm : ∀ t, litMatch phonLit1 t = false → phonMatchAt t = none :=
    fun t ht => phonMatchAt_of_no_lit ht
  have h : pairBlock e ++ s =
      e.1 ++ (posLit ++ (e.2.1 ++ (expEnd ++ (trsLit ++ (e.2.2 ++ (expEnd ++ s)))))) := by
    simp [pairBlock, pairSpanChars, expMid_eq, List.append_assoc]
  show scanOpt phonMatchAt _ = scanOpt phonMatchAt s
  rw [h]
  rw [scanOpt_skip_clean hm phonLit1_head hsep]
  rw [scanOpt_skip_lit hm phonLit1_head phonLit1_no_posLit no_lt_posLit_tail]
  rw [scanOpt_skip_clean hm phonLit1_head hpos]
  rw [scanOpt_skip_lit hm phonLit1_head phonLit1_no_expEnd no_lt_expEnd_tail]
  rw [scanOpt_skip_lit hm phonLit1_head phonLit1_no_trsLit no_lt_trsLit_tail]
  rw [scanOpt_skip_clean hm phonLit1_head htrs]
  rw [scanOpt_skip_lit hm phonLit1_head phonLit1_no_expEnd no_lt_expEnd_tail]

/-! ### Match lists of whole rendered fragments -/

theorem explainSearch_nil : explainSearch [] = none := by decide

theorem phoneticSearch_nil : phoneticSearch [] = none := by decide

theorem explainSearch_clean_none {a : List Char} (ha : '<' ∉ a) :
    explainSearch a = none := by
  rw [← List.append_nil a, explainSearch_skip_clean ha]
  exact explainSearch_nil

theorem phoneticSearch_clean_none {a : List Char} (ha : '<' ∉ a) :
    phoneticSearch a = none := by
  rw [← List.append_nil a, phoneticSearch_skip_clean ha]
  exact phoneticSearch_nil

/-- `captures_iter` over a rendered block list returns exactly the pairs, in
order. -/
theorem explainAll_blocks {pairs : List (List Char × List Char × List Char)}
    {post : List Char} (hpairs : ∀ e ∈ pairs, PairOk e) (hpost : '<' ∉ post) :
    explainAll ((pairs.map pairBlock).flatten ++ post) =
      pairs.map (fun e => (e.2.1, e.2.2)) := by
  induction pairs with
  | nil =>
    simp only [List.map_nil, List.flatten_nil, List.nil_append]
    exact explainAll_of_none (explainSearch_clean_none hpost)
  | cons e pairs ih =>
    obtain ⟨hsep, hpos, hposn, htrs, htrsn⟩ := hpairs e (List.mem_cons_self e pairs)
    simp only [List.map_cons, List.flatten_cons]
    rw [List.append_assoc]
    have hsearch :
        explainSearch (pairBlock e ++ ((pairs.map pairBlock).flatten ++ post)) =
          some (e.2.1, e.2.2, (pairs.map pairBlock).flatten ++ post) := by
      unfold pairBlock
      rw [List.append_assoc]
      rw [explainSearch_skip_clean hsep]
      exact explainSearch_pairSpan _ hpos hposn htrs htrsn
    rw [explainAll_of_some hsearch]
    rw [ih (fun e' he' => hpairs e' (List.mem_cons_of_mem e he'))]

/-- The phonetic pattern matches nowhere in a rendered block list. -/
theorem phoneticSearch_blocks_none {pairs : List (List Char × List Char × List Char)}
    {post : List Char} (hpairs : ∀ e ∈ pairs, PairOk e) (hpost : '<' ∉ post) :
    phoneticSearch ((pairs.map pairBlock).flatten ++ post) = none := by
  induction pairs with
  | nil =>
    simpa using phoneticSearch_clean_none hpost
  | cons e pairs ih =>
    obtain ⟨hsep, hpos, hposn, htrs, htrsn⟩ := hpairs e (List.mem_cons_self e pairs)
    simp only [List.map_cons, List.flatten_cons]
    rw [List.append_assoc]
    rw [phoneticSearch_skip_pairBlock hsep hpos htrs]
    exact ih (fun e' he' => hpairs e' (List.mem_cons_of_mem e he'))

/-! ### Concatenating lines and popping the trailing newline -/

theorem flatten_map_newline {ls : List (List Char)} (h : ls ≠ []) :
    (ls.map (fun e => e ++ ['\n'])).flatten = joinLines ls ++ ['\n'] := by
  induction ls with
  | nil => exact absurd rfl h
  | cons l ls ih =>
    cases ls with
    | nil => simp [joinLines]
    | cons l' ls' =>
      simp only [List.map_cons, List.flatten_cons] at ih ⊢
      rw [ih (by simp)]
      simp [joinLines, List.append_assoc]

/-- The source's `ends_with('\n')`-then-`pop` step turns the newline-joined
concatenation into a newline-join with no trailing newline. -/
theorem popNewline_flatten {ls : List (List Char)} (h : ls ≠ []) :
    popNewline ((ls.map (fun e => e ++ ['\n'])).flatten) = joinLines ls := by
  unfold popNewline
  rw [flatten_map_newline h, List.getLast?_concat, if_pos rfl]
  exact List.dropLast_concat

theorem phonMatchAt_ne_none {lang ph b : List Char}
    (hl : '\n' ∉ lang) (hp : '\n' ∉ ph) :
    phonMatchAt (phonLit1 ++ (lang ++ (phonMid ++ (ph ++ (phonEnd ++ b))))) ≠
      none := by
  unfold phonMatchAt
  rw [if_pos (litMatch_append_self phonLit1 _), List.drop_left]
  have h1 : lang ++ (phonMid ++ (ph ++ (phonEnd ++ b))) =
      lang ++ phonMid ++ (ph ++ phonEnd ++ b) := by
    simp [List.append_assoc]
  rw [h1]
  apply findSome?_ne_none_of_mem (lazySplits_complete hl)
  simp only [ne_eq, Option.map_eq_none']
  intro hnone
  have hmem : (ph, b) ∈ lazySplits phonEnd (ph ++ phonEnd ++ b) :=
    lazySplits_complete hp
  rw [List.head?_eq_none_iff] at hnone
  rw [hnone] at hmem
  simp at hmem

theorem expMatchAt_ne_none {pos trs b : List Char}
    (hp : '\n' ∉ pos) (ht : '\n' ∉ trs) :
    expMatchAt (posLit ++ (pos ++ (expMid ++ (trs ++ (expEnd ++ b))))) ≠ none := by
  unfold expMatchAt
  rw [if_pos (litMatch_append_self posLit _), List.drop_left]
  have h1 : pos ++ (expMid ++ (trs ++ (expEnd ++ b))) =
      pos ++ expMid ++ (trs ++ expEnd ++ b) := by
    simp [List.append_assoc]
  rw [h1]
  apply findSome?_ne_none_of_mem (lazySplits_complete hp)
  simp only [ne_eq, Option.map_eq_none']
  intro hnone
  have hmem : (trs, b) ∈ lazySplits expEnd (trs ++ expEnd ++ b) :=
    lazySplits_complete ht
  rw [List.head?_eq_none_iff] at hnone
  rw [hnone] at hmem
  simp at hmem

theorem phonMatchAt_some_decompose {t : List Char} {v : List Char}
    (h : phonMatchAt t = some v) :
    ∃ lang ph b, t = phonLit1 ++ lang ++ phonMid ++ ph ++ phonEnd ++ b
      ∧ '\n' ∉ lang ∧ '\n' ∉ ph := by
  unfold phonMatchAt at h
  by_cases hl : litMatch phonLit1 t = true
  · rw [if_pos hl] at h
    obtain ⟨p1, hp1mem, hp1⟩ := List.exists_of_findSome?_eq_some h
    cases hhead : (lazySplits phonEnd p1.2).head? with
    | none => rw [hhead] at hp1; simp at hp1
    | some p2 =>
      obtain ⟨hsplit1, hnl1⟩ := lazySplits_sound hp1mem
      obtain ⟨hsplit2, hnl2⟩ := lazySplits_sound (mem_of_head?_eq_some hhead)
      refine ⟨p1.1, p2.1, p2.2, ?_, hnl1, hnl2⟩
      have ht := eq_append_of_litMatch hl
      rw [ht, hsplit1, hsplit2]
      simp [List.append_assoc]
  · rw [if_neg hl] at h
    simp at h

theorem expMatchAt_some_decompose {t : List Char}
    {v : List Char × List Char × List Char} (h : expMatchAt t = some v) :
    ∃ pos trs b, t = posLit ++ pos ++ expMid ++ trs ++ expEnd ++ b
      ∧ '\n' ∉ pos ∧ '\n' ∉ trs := by
  unfold expMatchAt at h
  by_cases hl : litMatch posLit t = true
  · rw [if_pos hl] at h
    obtain ⟨p1, hp1mem, hp1⟩ := List.exists_of_findSome?_eq_some h
    cases hhead : (lazySplits expEnd p1.2).head? with
    | none => rw [hhead] at hp1; simp at hp1
    | some p2 =>
      obtain ⟨hsplit1, hnl1⟩ := lazySplits_sound hp1mem
      obtain ⟨hsplit2, hnl2⟩ := lazySplits_sound (mem_of_head?_eq_some hhead)
      refine ⟨p1.1, p2.1, p2.2, ?_, hnl1, hnl2⟩
      have ht := eq_append_of_litMatch hl
      rw [ht, hsplit1, hsplit2]
      simp [List.append_assoc]
  · rw [if_neg hl] at h
    simp at h

/-- The phonetic search fails exactly on strings without a phonetic-pattern
match. -/
theorem phoneticSearch_eq_none_iff {s : List Char} :
    phoneticSearch s = none ↔ ¬ PhonPat s := by
  constructor
  · intro hnone hpat
    obtain ⟨a, lang, ph, b, hs, hl, hp⟩ := hpat
    have hnone' := (scanOpt_eq_none_iff).mp hnone
    have hsuf : phonLit1 ++ (lang ++ (phonMid ++ (ph ++ (phonEnd ++ b)))) <:+ s :=
      ⟨a, by rw [hs]; simp [List.append_assoc]⟩
    exact phonMatchAt_ne_none hl hp (hnone' _ hsuf)
  · intro hpat
    cases hsearch : phoneticSearch s with
    | none => rfl
    | some v =>
      exfalso
      obtain ⟨t, ⟨a, ha⟩, hmt⟩ := scanOpt_eq_some_exists hsearch
      obtain ⟨lang, ph, b, hdec, hl, hp⟩ := phonMatchAt_some_decompose hmt
      exact hpat ⟨a, lang, ph, b, by rw [← ha, hdec]; simp [List.append_assoc], hl, hp⟩

/-- The explain search fails exactly on strings without an explain-pattern
match. -/
theorem explainSearch_eq_none_iff {s : List Char} :
    explainSearch s = none ↔ ¬ ExpPat s := by
  constructor
  · intro hnone hpat
    obtain ⟨a, pos, trs, b, hs, hp, ht⟩ := hpat
    have hnone' := (scanOpt_eq_none_iff).mp hnone
    have hsuf : posLit ++ (pos ++ (expMid ++ (trs ++ (expEnd ++ b)))) <:+ s :=
      ⟨a, by rw [hs]; simp [List.append_assoc]⟩
    exact expMatchAt_ne_none hp ht (hnone' _ hsuf)
  · intro hpat
    cases hsearch : explainSearch s with
    | none => rfl
    | some v =>
      exfalso
      obtain ⟨t, ⟨a, ha⟩, hmt⟩ := scanOpt_eq_some_exists hsearch
      obtain ⟨pos, trs, b, hdec, hp, ht⟩ := expMatchAt_some_decompose hmt
      exact hpat ⟨a, pos, trs, b, by rw [← ha, hdec]; simp [List.append_assoc], hp, ht⟩

theorem explainAll_eq_nil_iff {s : List Char} :
    explainAll s = [] ↔ explainSearch s = none := by
  rw [explainAll_eq_match]
  cases hsearch : explainSearch s with
  | none => simp
  | some v => obtain ⟨p, t, r⟩ := v; simp

/-! ### Correctness of `findSublist` (Rust `str::find`) -/

/-- `findSublist` returns exactly the first index at which the literal
occurs. -/
theorem findSublist_some_iff {p s : List Char} {i : Nat} :
    findSublist p s = some i ↔
      (litMatch p (s.drop i) = true ∧ ∀ k, k < i → litMatch p (s.drop k) = false) := by
  induction s generalizing i with
  | nil =>
    unfold findSublist
    by_cases hp : litMatch p [] = true
    · rw [if_pos hp]
      constructor
      · intro h
        rw [Option.some.injEq] at h
        subst h
        exact ⟨by simpa using hp, fun k hk => absurd hk (by omega)⟩
      · rintro ⟨h1, h2⟩
        cases i with
        | zero => rfl
        | succ j => exact absurd (h2 0 (by omega)) (by simpa using hp)
    · rw [if_neg hp]
      constructor
      · intro h; simp at h
      · rintro ⟨h1, h2⟩
        rw [List.drop_nil] at h1
        exact absurd h1 hp
  | cons c cs ih =>
    unfold findSublist
    by_cases hm : litMatch p (c :: cs) = true
    · rw [if_pos hm]
      constructor
      · intro h
        rw [Option.some.injEq] at h
        subst h
        exact ⟨by simpa using hm, fun k hk => absurd hk (by omega)⟩
      · rintro ⟨h1, h2⟩
        cases i with
        | zero => rfl
        | succ j => exact absurd (h2 0 (by omega)) (by simpa using hm)
    · rw [if_neg hm]
      cases i with
      | zero =>
        rw [Option.map_eq_some']
        constructor
        · rintro ⟨j, hj, hj0⟩; omega
        · rintro ⟨h1, h2⟩
          rw [List.drop_zero] at h1
          exact absurd h1 hm
      | succ j =>
        rw [Option.map_eq_some']
        constructor
        · rintro ⟨j', hj', hj0⟩
          have hjj : j' = j := by omega
          subst hjj
          obtain ⟨h1, h2⟩ := ih.mp hj'
          refine ⟨h1, ?_⟩
          intro k hk
          cases k with
          | zero =>
            rw [List.drop_zero]
            simpa using hm
          | succ k' => exact h2 k' (by omega)
        · rintro ⟨h1, h2⟩
          exact ⟨j, ih.mpr ⟨h1, fun k hk => h2 (k + 1) (by omega)⟩, rfl⟩

/-- `findSublist` fails exactly when the literal occurs nowhere. -/
theorem findSublist_none_iff {p s : List Char} :
    findSublist p s = none ↔ ∀ k, litMatch p (s.drop k) = false := by
  induction s with
  | nil =>
    unfold findSublist
    by_cases hp : litMatch p [] = true
    · rw [if_pos hp]
      constructor
      · intro h; simp at h
      · intro h
        exact absurd (h 0) (by simpa using hp)
    · rw [if_neg hp]
      constructor
      · intro _ k
        rw [List.drop_nil]
        simpa using hp
      · intro _; rfl
  | cons c cs ih =>
    unfold findSublist
    by_cases hm : litMatch p (c :: cs) = true
    · rw [if_pos hm]
      constructor
      · intro h; simp at h
      · intro h
        exact absurd (by simpa using h 0) (by simpa using hm)
    · rw [if_neg hm]
      rw [Option.map_eq_none', ih]
      constructor
      · intro h k
        cases k with
        | zero =>
          rw [List.drop_zero]
          simpa using hm
        | succ k' => exact h k'
      · intro h k
        exact h (k + 1)

/-! ### Trimming lemmas -/

theorem dropWhile_dropWhile {p : Char → Bool} (l : List Char) :
    (l.dropWhile p).dropWhile p = l.dropWhile p := by
  induction l with
  | nil => rfl
  | cons c cs ih =>
    by_cases h : p c = true
    · simp [List.dropWhile_cons, h, ih]
    · simp [List.dropWhile_cons, h]

theorem rustTrimRight_idem (s : List Char) :
    rustTrimRight (rustTrimRight s) = rustTrimRight s := by
  unfold rustTrimRight
  rw [List.reverse_reverse, dropWhile_dropWhile]

theorem length_dropWhile_le (p : Char → Bool) (l : List Char) :
    (l.dropWhile p).length ≤ l.length := by
  induction l with
  | nil => simp
  | cons c cs ih =>
    rw [List.dropWhile_cons]
    by_cases h : p c = true
    · rw [if_pos h]
      simp only [List.length_cons]
      omega
    · rw [if_neg h]

/-- A list fixed by `dropWhile` stays fixed after trailing-whitespace
removal. -/
theorem dropWhile_rustTrimRight_of_fixed {s : List Char}
    (h : s.dropWhile isRustWhitespace = s) :
    (rustTrimRight s).dropWhile isRustWhitespace = rustTrimRight s := by
  set w := (s.reverse.takeWhile isRustWhitespace).reverse with hw
  have hsplit : s = rustTrimRight s ++ w := by
    conv_lhs => rw [← List.reverse_reverse s,
      ← List.takeWhile_append_dropWhile isRustWhitespace s.reverse]
    rw [List.reverse_append]
    rfl
  cases htr : rustTrimRight s with
  | nil => rfl
  | cons c t =>
    have hs2 : s = c :: (t ++ w) := by
      conv_lhs => rw [hsplit, htr]
      rfl
    by_cases hc : isRustWhitespace c = true
    · exfalso
      have hfix := h
      rw [hs2, List.dropWhile_cons, if_pos hc] at hfix
      have hlen := congrArg List.length hfix
      rw [List.length_cons] at hlen
      have hle := length_dropWhile_le isRustWhitespace (t ++ w)
      omega
    · rw [List.dropWhile_cons, if_neg hc]

theorem rustTrimList_idem (s : List Char) :
    rustTrimList (rustTrimList s) = rustTrimList s := by
  unfold rustTrimList rustTrimLeft
  rw [dropWhile_rustTrimRight_of_fixed (dropWhile_dropWhile s)]
  exact rustTrimRight_idem _

theorem rustTrim_idem (s : String) : rustTrim (rustTrim s) = rustTrim s :=
  congrArg String.mk (rustTrimList_idem s.data)

/-- An all-whitespace string trims to nothing. -/
theorem rustTrimList_eq_nil {s : List Char}
    (h : ∀ c ∈ s, isRustWhitespace c = true) : rustTrimList s = [] := by
  unfold rustTrimList rustTrimLeft
  rw [List.dropWhile_eq_nil_iff.mpr h]
  rfl

/-! ### The assembled result of Strategy A -/

theorem phonPart_eq_some {s cap : List Char} (h : phoneticSearch s = some cap) :
    phonPart s = "· [".data ++ rustTrimList cap ++ "]\n".data := by
  unfold phonPart
  rw [h]

theorem phonPart_eq_none {s : List Char} (h : phoneticSearch s = none) :
    phonPart s = [] := by
  unfold phonPart
  rw [h]

theorem explainLines_eq {s : List Char} {l : List (List Char × List Char)}
    (h : explainAll s = l) :
    explainLines s = l.map (fun pt => "· ".data ++ pt.1 ++ " ".data ++ pt.2) := by
  unfold explainLines
  rw [h]

/-- Every line the phonetic step can produce is at least 5 characters. -/
theorem phonPart_nil_or_long (s : List Char) :
    phonPart s = [] ∨ 5 ≤ (phonPart s).length := by
  unfold phonPart
  cases phoneticSearch s with
  | none => exact Or.inl rfl
  | some cap =>
    right
    simp only [List.length_append, List.length_cons, List.length_nil]
    omega

/-- Every explain line is at least 3 characters. -/
theorem explainLines_long {s : List Char} {e : List Char}
    (he : e ∈ explainLines s) : 3 ≤ e.length := by
  unfold explainLines at he
  rw [List.mem_map] at he
  obtain ⟨pt, -, rfl⟩ := he
  simp only [List.length_append, List.length_cons, List.length_nil]
  omega

/-- Whenever Strategy A returns a result, it is a non-empty string: the
result starts from a phonetic line of ≥ 5 characters or an explain line of
≥ 4 characters (with its newline), and only one trailing character is ever
popped. -/
theorem parse_some_ne_empty {html s : String}
    (h : parse_bing_response html = some s) : s ≠ "" := by
  unfold parse_bing_response at h
  by_cases hguard :
      ((explainLines html.data).isEmpty && (phonPart html.data).isEmpty) = true
  · rw [if_pos hguard] at h
    simp at h
  · rw [if_neg hguard] at h
    rw [Option.some.injEq] at h
    subst h
    intro hempty
    have hX : popNewline (phonPart html.data ++
        ((explainLines html.data).map (fun e => e ++ ['\n'])).flatten) = [] := by
      have := congrArg String.data hempty
      simpa using this
    set full := phonPart html.data ++
        ((explainLines html.data).map (fun e => e ++ ['\n'])).flatten with hfull
    have hlen : 4 ≤ full.length := by
      rcases phonPart_nil_or_long html.data with hp | hp
      · -- the guard then forces a non-empty explain list
        have hexp : (explainLines html.data) ≠ [] := by
          intro hnil
          exact hguard (by simp [hnil, hp])
        cases hel : explainLines html.data with
        | nil => exact absurd hel hexp
        | cons e es =>
          have he3 : 3 ≤ e.length := explainLines_long (by rw [hel]; simp)
          rw [hfull, hel, hp]
          simp only [List.map_cons, List.flatten_cons, List.nil_append,
            List.length_append, List.length_cons]
          omega
      · rw [hfull]
        rw [List.length_append]
        omega
    have hpop : 3 ≤ (popNewline full).length := by
      unfold popNewline
      by_cases hlast : full.getLast? = some '\n'
      · rw [if_pos hlast]
        rw [List.length_dropLast]
        omega
      · rw [if_neg hlast]
        omega
    rw [hX] at hpop
    simp at hpop


/-! ### Unfolding equations for the fetch layer -/

theorem fetch_from_bing_netErr (word m : String) :
    fetch_from_bing word (.netErr m) = .error (.net m) := rfl

theorem fetch_from_bing_resp (word : String) (r : HttpResponse) :
    fetch_from_bing word (.resp r) =
      if !statusIsSuccess r.status then .error (.badStatus r.status)
      else
        match parse_bing_response r.body with
        | none => .error .parseFailed
        | some result =>
          if result = "" then .error .noValidData else .ok result := rfl

theorem fetch_from_bing_fallback_resp (word : String) (r : HttpResponse) :
    fetch_from_bing_fallback word (.resp r) =
      if !statusIsSuccess r.status then .error (.badStatus r.status)
      else
        match parse_bing_response_fallback r.body with
        | none => .error .parseFailed
        | some result =>
          if result = "" then .error .noValidData else .ok result := rfl

/-! ### The claims -/

/-- Claim C1: for every query word and every combination of outcomes of the
primary and fallback endpoint fetches (success, HTTP error, network error,
or parse failure), `fetch_translation` returns `Ok` — it never propagates an
error to its caller — and when both endpoint fetches fail it returns exactly
the string `"No Data"`. -/
theorem c1_fetch_translation_total (word : String) (p fb : FetchOutcome) :
    (∃ s, fetch_translation word p fb = .ok s) ∧
      ((fetch_from_bing word p).isOk = false →
        (fetch_from_bing_fallback word fb).isOk = false →
        fetch_translation word p fb = .ok "No Data") := by
  cases h1 : fetch_from_bing word p with
  | ok s =>
    constructor
    · exact ⟨s, by unfold fetch_translation; rw [h1]⟩
    · intro hc _
      simp [Except.isOk, Except.toBool] at hc
  | error e =>
    cases h2 : fetch_from_bing_fallback word fb with
    | ok s =>
      constructor
      · exact ⟨s, by unfold fetch_translation; rw [h1, h2]⟩
      · intro _ hc
        simp [Except.isOk, Except.toBool] at hc
    | error e2 =>
      constructor
      · exact ⟨"No Data", by unfold fetch_translation; rw [h1, h2]⟩
      · intro _ _
        unfold fetch_translation
        rw [h1, h2]

/-- Witness for C1: both endpoints return HTTP 500, and the displayed result
is exactly `"No Data"` (the spec's end-to-end scenario 2). -/
theorem c1_witness :
    fetch_translation "hello" (.resp ⟨500, ""⟩) (.resp ⟨500, ""⟩) = .ok "No Data" :=
  (c1_fetch_translation_total "hello" (.resp ⟨500, ""⟩) (.resp ⟨500, ""⟩)).2
    (by decide) (by decide)

/-- Claim C2: for any HTTP response, `fetch_from_bing` errors iff the status
is not a success status, or the parse returns no result, or an empty result;
and `fetch_translation` consults the fallback endpoint exactly when the
primary fetch errored — on primary success the fallback outcome is
irrelevant and the primary's result is returned, and on primary failure the
fallback's outcome determines the result. -/
theorem c2_primary_error_iff_and_fallback_order (word : String)
    (r : HttpResponse) (p fb : FetchOutcome) :
    ((fetch_from_bing word (.resp r)).isOk = false ↔
      (statusIsSuccess r.status = false ∨ parse_bing_response r.body = none ∨
        parse_bing_response r.body = some "")) ∧
    (∀ s, fetch_from_bing word p = .ok s → fetch_translation word p fb = .ok s) ∧
    ((fetch_from_bing word p).isOk = false →
      ∀ s, fetch_from_bing_fallback word fb = .ok s →
        fetch_translation word p fb = .ok s) := by
  refine ⟨?_, ?_, ?_⟩
  · rw [fetch_from_bing_resp]
    split
    · next hcond =>
      have hst : statusIsSuccess r.status = false := by simpa using hcond
      simp [Except.isOk, Except.toBool, hst]
    · next hcond =>
      have hst : statusIsSuccess r.status = true := by simpa using hcond
      cases hp : parse_bing_response r.body with
      | none => simp [Except.isOk, Except.toBool, hst, hp]
      | some res =>
        by_cases hres : res = ""
        · subst hres
          simp [Except.isOk, Except.toBool, hst, hp]
        · simp [Except.isOk, Except.toBool, hst, hp, hres]
  · intro s hs
    unfold fetch_translation
    rw [hs]
  · intro hnot s hs
    unfold fetch_translation
    cases h1 : fetch_from_bing word p with
    | ok s' =>
      rw [h1] at hnot
      simp [Except.isOk, Except.toBool] at hnot
    | error e => rw [hs]

/-- Witness for C2: a success-status response whose body does not parse
errors; a successful primary short-circuits the fallback; a failed primary
surfaces the fallback's extraction (the spec's end-to-end scenario 3). -/
theorem c2_witness :
    (fetch_from_bing "w" (.resp ⟨200, "x"⟩)).isOk = false ∧
    fetch_translation "w"
      (.resp ⟨200, "<span class=\"ht_pos\">n.</span><span class=\"ht_trs\">hi</span>"⟩)
      (.netErr "ignored") = .ok "· n. hi" ∧
    fetch_translation "w" (.netErr "down")
      (.resp ⟨200, "<meta name=\"description\" content=\"hi\" />"⟩) = .ok "hi" :=
  ⟨(c2_primary_error_iff_and_fallback_order "w" ⟨200, "x"⟩ (.netErr "down")
      (.netErr "down")).1.mpr (Or.inr (Or.inl (by decide))),
   (c2_primary_error_iff_and_fallback_order "w" ⟨200, "x"⟩
      (.resp ⟨200, "<span class=\"ht_pos\">n.</span><span class=\"ht_trs\">hi</span>"⟩)
      (.netErr "ignored")).2.1 "· n. hi" (by decide),
   (c2_primary_error_iff_and_fallback_order "w" ⟨200, "x"⟩ (.netErr "down")
      (.resp ⟨200, "<meta name=\"description\" content=\"hi\" />"⟩)).2.2
     (by decide) "hi" (by decide)⟩

/-- Claim C9: whenever `parse_bing_response` returns a result it is a
non-empty string, so the `"No valid data from API"` branch of
`fetch_from_bing` (taken when the parsed result is empty) is unreachable:
the primary fetcher never returns that error. -/
theorem c9_no_valid_data_unreachable (html s word : String) (o : FetchOutcome) :
    (parse_bing_response html = some s → s ≠ "") ∧
      fetch_from_bing word o ≠ .error .noValidData := by
  constructor
  · exact parse_some_ne_empty
  · cases o with
    | netErr m =>
      rw [fetch_from_bing_netErr]
      simp
    | resp r =>
      rw [fetch_from_bing_resp]
      split
      · simp
      · cases hp : parse_bing_response r.body with
        | none => simp
        | some res =>
          have hres : res ≠ "" := parse_some_ne_empty hp
          simp [hres]

/-- Witness for C9: a concrete parse result is non-empty, and a concrete
primary fetch does not produce the unreachable error. -/
theorem c9_witness :
    parse_bing_response
        "<span class=\"ht_pos\">n.</span><span class=\"ht_trs\">hi</span>" =
      some "· n. hi" ∧
    ("· n. hi" : String) ≠ "" ∧
    fetch_from_bing "w" (.netErr "down") ≠ .error .noValidData :=
  ⟨by decide,
   (c9_no_valid_data_unreachable
      "<span class=\"ht_pos\">n.</span><span class=\"ht_trs\">hi</span>"
      "· n. hi" "w" (.netErr "down")).1 (by decide),
   (c9_no_valid_data_unreachable
      "<span class=\"ht_pos\">n.</span><span class=\"ht_trs\">hi</span>"
      "· n. hi" "w" (.netErr "down")).2⟩

/-- Claim C7: for every query that is empty or consists only of whitespace
(so it is empty after trimming), the fetcher is never invoked: the search
action dispatches nothing, and the startup path spawns no background fetch
when the trimmed command-line argument is empty. -/
theorem c7_blank_query_never_dispatched (word prog arg : String)
    (rest : List String)
    (hw : word.data.all isRustWhitespace = true)
    (ha : arg.data.all isRustWhitespace = true) :
    on_search_dispatch word = none ∧ startup_dispatch (prog :: arg :: rest) = none := by
  have hwt : rustTrim word = "" := by
    unfold rustTrim
    rw [rustTrimList_eq_nil (List.all_eq_true.mp hw)]
  have hat : rustTrim arg = "" := by
    unfold rustTrim
    rw [rustTrimList_eq_nil (List.all_eq_true.mp ha)]
  constructor
  · unfold on_search_dispatch
    rw [if_pos hwt]
  · unfold startup_dispatch initial_search
    simp only
    rw [if_pos hat]

/-- Witness for C7: two concrete whitespace-only queries are not
dispatched. -/
theorem c7_witness :
    on_search_dispatch "  " = none ∧ startup_dispatch ["simdict", " \t"] = none :=
  c7_blank_query_never_dispatched "  " "simdict" " \t" [] (by decide) (by decide)

/-- Claim C8 is false on the interactive path: the `on_search` closure only
checks `word.trim().is_empty()` and then dispatches the raw `word`, so a
padded query such as `" hello "` is dispatched untrimmed, and it differs from
its own trim. -/
theorem c8_counterexample :
    on_search_dispatch " hello " = some " hello " ∧
      rustTrim " hello " ≠ " hello " := by
  constructor
  · unfold on_search_dispatch
    rw [if_neg (by decide)]
  · decide

/-- Claim C8 as amended: on the startup-argument path every dispatched query
is trimmed (equals its own trim); on the interactive search path the raw
input is dispatched verbatim — possibly untrimmed — and is guaranteed only
to be non-empty after trimming. -/
theorem c8_amended_dispatch_trimming (argv : List String) (w q : String) :
    (startup_dispatch argv = some q → rustTrim q = q) ∧
    (on_search_dispatch w = some q → q = w ∧ rustTrim q ≠ "") := by
  constructor
  · intro h
    cases argv with
    | nil =>
      unfold startup_dispatch initial_search at h
      simp at h
    | cons prog rest =>
      cases rest with
      | nil =>
        unfold startup_dispatch initial_search at h
        simp at h
      | cons a rest' =>
        unfold startup_dispatch initial_search at h
        simp only at h
        by_cases hi : rustTrim a = ""
        · rw [if_pos hi] at h
          simp at h
        · rw [if_neg hi] at h
          rw [Option.some.injEq] at h
          rw [← h]
          exact rustTrim_idem a
  · intro h
    unfold on_search_dispatch at h
    by_cases hw : rustTrim w = ""
    · rw [if_pos hw] at h
      simp at h
    · rw [if_neg hw] at h
      rw [Option.some.injEq] at h
      subst h
      exact ⟨rfl, hw⟩

/-- Witness for the amended C8: a concrete startup dispatch is trimmed, and a
concrete interactive dispatch passes the raw input through with a non-empty
trim. -/
theorem c8_amended_witness :
    rustTrim "hi" = "hi" ∧
      ((" hello " : String) = " hello " ∧ rustTrim " hello " ≠ "") :=
  ⟨(c8_amended_dispatch_trimming ["simdict", "  hi  "] "w" "hi").1 (by decide),
   (c8_amended_dispatch_trimming [] " hello " " hello ").2 (by decide)⟩

/-- Claim C5: for any HTML containing the meta-description start marker, with
a closing delimiter occurring after it, Strategy B returns exactly the
characters between the first start marker and the next closing delimiter
after it, unmodified.  (`i` is the first index where the start marker
matches; `j` is the first index in the remainder where the closing delimiter
matches.) -/
theorem c5_fallback_extracts_between (html : String) (i j : Nat)
    (h1 : litMatch metaStart (html.data.drop i) = true)
    (h2 : ∀ k, k < i → litMatch metaStart (html.data.drop k) = false)
    (h3 : litMatch metaEnd ((html.data.drop (i + metaStart.length)).drop j) = true)
    (h4 : ∀ k, k < j →
      litMatch metaEnd ((html.data.drop (i + metaStart.length)).drop k) = false) :
    parse_bing_response_fallback html =
      some (String.mk ((html.data.drop (i + metaStart.length)).take j)) := by
  unfold parse_bing_response_fallback
  rw [findSublist_some_iff.mpr ⟨h1, h2⟩]
  simp only
  rw [findSublist_some_iff.mpr ⟨h3, h4⟩]

/-- Witness for C5: the content `hi` is extracted verbatim from a concrete
page. -/
theorem c5_witness :
    parse_bing_response_fallback "<meta name=\"description\" content=\"hi\" />" =
      some "hi" :=
  c5_fallback_extracts_between "<meta name=\"description\" content=\"hi\" />" 0 2
    (by decide) (fun k hk => absurd hk (Nat.not_lt_zero k)) (by decide)
    (by intro k hk; interval_cases k <;> decide)

/-- Claim C6: when the start marker occurs nowhere in the HTML, or when no
closing delimiter occurs after the first start marker, Strategy B returns
`none` — the no-result value. -/
theorem c6_fallback_none_when_marker_missing (html : String) :
    ((∀ k, litMatch metaStart (html.data.drop k) = false) →
      parse_bing_response_fallback html = none) ∧
    (∀ i, litMatch metaStart (html.data.drop i) = true →
      (∀ k, k < i → litMatch metaStart (html.data.drop k) = false) →
      (∀ k, litMatch metaEnd ((html.data.drop (i + metaStart.length)).drop k) = false) →
      parse_bing_response_fallback html = none) := by
  constructor
  · intro h
    unfold parse_bing_response_fallback
    rw [findSublist_none_iff.mpr h]
  · intro i h1 h2 h3
    unfold parse_bing_response_fallback
    rw [findSublist_some_iff.mpr ⟨h1, h2⟩]
    simp only
    rw [findSublist_none_iff.mpr h3]

/-- Witness for C6: a page without the start marker, and a page whose start
marker is never followed by the closing delimiter, both yield `none`. -/
theorem c6_witness :
    parse_bing_response_fallback "hello" = none ∧
      parse_bing_response_fallback "<meta name=\"description\" content=\"oops" =
        none :=
  ⟨(c6_fallback_none_when_marker_missing "hello").1
     (findSublist_none_iff.mp (by decide)),
   (c6_fallback_none_when_marker_missing
      "<meta name=\"description\" content=\"oops").2 0 (by decide)
     (fun k hk => absurd hk (Nat.not_lt_zero k))
     (findSublist_none_iff.mp (by decide))⟩

/-- Claim C10: when the first meta-description start marker is immediately
followed by the closing delimiter (an empty content attribute), Strategy B
returns the empty string, `fetch_from_bing_fallback` treats that as a
failure rather than displaying it, and — the primary having failed — the
overall result degrades to `"No Data"`. -/
theorem c10_empty_extraction_degrades (word html : String) (st : Nat)
    (p : FetchOutcome) (i : Nat)
    (h1 : litMatch metaStart (html.data.drop i) = true)
    (h2 : ∀ k, k < i → litMatch metaStart (html.data.drop k) = false)
    (h3 : litMatch metaEnd (html.data.drop (i + metaStart.length)) = true)
    (hst : statusIsSuccess st = true)
    (hp : (fetch_from_bing word p).isOk = false) :
    parse_bing_response_fallback html = some "" ∧
      fetch_from_bing_fallback word (.resp ⟨st, html⟩) = .error .noValidData ∧
      fetch_translation word p (.resp ⟨st, html⟩) = .ok "No Data" := by
  have hparse : parse_bing_response_fallback html = some "" := by
    unfold parse_bing_response_fallback
    rw [findSublist_some_iff.mpr ⟨h1, h2⟩]
    simp only
    rw [(findSublist_some_iff (i := 0)).mpr
      ⟨by simpa using h3, fun k hk => absurd hk (Nat.not_lt_zero k)⟩]
    simp
  have hfb : fetch_from_bing_fallback word (.resp ⟨st, html⟩) =
      .error .noValidData := by
    rw [fetch_from_bing_fallback_resp]
    simp only [hst, Bool.not_true, Bool.false_eq_true, if_false]
    rw [hparse]
    simp
  refine ⟨hparse, hfb, ?_⟩
  unfold fetch_translation
  cases hfetch : fetch_from_bing word p with
  | ok s' =>
    rw [hfetch] at hp
    simp [Except.isOk, Except.toBool] at hp
  | error e => rw [hfb]

/-- Witness for C10: an empty meta-description content on the fallback page,
with a failed primary fetch, displays `"No Data"`. -/
theorem c10_witness :
    parse_bing_response_fallback "<meta name=\"description\" content=\"\" />" =
        some "" ∧
      fetch_from_bing_fallback "hello"
          (.resp ⟨200, "<meta name=\"description\" content=\"\" />"⟩) =
        .error .noValidData ∧
      fetch_translation "hello" (.resp ⟨500, ""⟩)
          (.resp ⟨200, "<meta name=\"description\" content=\"\" />"⟩) =
        .ok "No Data" :=
  c10_empty_extraction_degrades "hello"
    "<meta name=\"description\" content=\"\" />" 200 (.resp ⟨500, ""⟩) 0
    (by decide) (fun k hk => absurd hk (Nat.not_lt_zero k)) (by decide)
    (by decide) (by decide)

/-- Claim C4: for any HTML in which neither the phonetic-span pattern nor any
pos/translation pair pattern matches, Strategy A returns the no-result value
`none`, which is distinct from returning an empty string. -/
theorem c4_parse_none_when_no_pattern (html : String)
    (h1 : ¬ PhonPat html.data) (h2 : ¬ ExpPat html.data) :
    parse_bing_response html = none ∧ parse_bing_response html ≠ some "" := by
  have hps : phoneticSearch html.data = none := phoneticSearch_eq_none_iff.mpr h1
  have hes : explainSearch html.data = none := explainSearch_eq_none_iff.mpr h2
  have hall : explainAll html.data = [] := explainAll_eq_nil_iff.mpr hes
  have hnone : parse_bing_response html = none := by
    unfold parse_bing_response
    rw [explainLines_eq hall, phonPart_eq_none hps]
    simp
  exact ⟨hnone, by rw [hnone]; simp⟩

/-- Witness for C4: plain text matches neither pattern and parses to
`none`. -/
theorem c4_witness :
    parse_bing_response "plain text" = none ∧
      parse_bing_response "plain text" ≠ some "" :=
  c4_parse_none_when_no_pattern "plain text"
    (phoneticSearch_eq_none_iff.mp (by decide))
    (explainSearch_eq_none_iff.mp (by decide))

/-- `parse_bing_response` computed on an explicitly-given character list. -/
theorem parse_bing_response_data (l : List Char) :
    parse_bing_response (String.mk l) =
      if ((explainLines l).isEmpty && (phonPart l).isEmpty) = true then none
      else
        some (String.mk (popNewline
          (phonPart l ++ ((explainLines l).map (fun e => e ++ ['\n'])).flatten))) := rfl

/-- Popping the trailing newline from a phonetic line followed by
newline-terminated explain lines yields the newline-join of all lines. -/
theorem popNewline_cons (line0 : List Char) (ls : List (List Char)) :
    popNewline ((line0 ++ ['\n']) ++ (ls.map (fun e => e ++ ['\n'])).flatten) =
      joinLines (line0 :: ls) := by
  have h := @popNewline_flatten (line0 :: ls) (by simp)
  simpa [List.map_cons, List.flatten_cons] using h

/-- Claim C3: for any HTML fragment containing a well-formed phonetic span
(optional) and zero or more well-formed pos/translation span pairs —
arbitrary `'<'`-free filler before, between and after the spans, and span
contents free of the characters that would terminate or restart a pattern —
Strategy A returns a string with exactly one line per present element: the
phonetic line first if present, then one line per pair in order of
occurrence, each line prefixed with `"· "`, the phonetic wrapped in square
brackets, and with no trailing newline. -/
theorem c3_parse_wellformed_fragment (pre post : List Char)
    (phon : Option (List Char × List Char))
    (pairs : List (List Char × List Char × List Char))
    (hpre : '<' ∉ pre) (hpost : '<' ∉ post)
    (hphon : match phon with
      | some lp => '<' ∉ lp.1 ∧ '"' ∉ lp.1 ∧ '\n' ∉ lp.1 ∧
          '<' ∉ lp.2 ∧ ']' ∉ lp.2 ∧ '\n' ∉ lp.2 ∧ rustTrimList lp.2 = lp.2
      | none => True)
    (hpairs : ∀ e ∈ pairs, PairOk e)
    (hne : phon ≠ none ∨ pairs ≠ []) :
    parse_bing_response (String.mk (fragment pre phon pairs post)) =
      some (String.mk (joinLines (
        (match phon with
          | some lp => ["· [".data ++ lp.2 ++ [']']]
          | none => []) ++
        pairs.map (fun e => "· ".data ++ e.2.1 ++ " ".data ++ e.2.2)))) := by
  cases phon with
  | some lp =>
    obtain ⟨lang, ph⟩ := lp
    obtain ⟨hl1, hl2, hl3, hp1, hp2, hp3, htrim⟩ := hphon
    dsimp only at hl1 hl2 hl3 hp1 hp2 hp3 htrim
    have hfrag : fragment pre (some (lang, ph)) pairs post =
        pre ++ (phonSpanChars lang ph ++ ((pairs.map pairBlock).flatten ++ post)) := by
      simp [fragment, List.append_assoc]
    have hps : phoneticSearch (fragment pre (some (lang, ph)) pairs post) =
        some ph := by
      rw [hfrag, phoneticSearch_skip_clean hpre]
      exact phoneticSearch_phonSpan _ hl2 hl3 hp2 hp3
    have hes : explainAll (fragment pre (some (lang, ph)) pairs post) =
        pairs.map (fun e => (e.2.1, e.2.2)) := by
      rw [hfrag]
      have hsk : explainSearch
          (pre ++ (phonSpanChars lang ph ++ ((pairs.map pairBlock).flatten ++ post))) =
          explainSearch ((pairs.map pairBlock).flatten ++ post) := by
        rw [explainSearch_skip_clean hpre, explainSearch_skip_phonSpan hl1 hp1]
      rw [explainAll_congr hsk]
      exact explainAll_blocks hpairs hpost
    have hphonpart : phonPart (fragment pre (some (lang, ph)) pairs post) =
        ("· [".data ++ ph ++ [']']) ++ ['\n'] := by
      rw [phonPart_eq_some hps, htrim]
      simp
    have hexplains : explainLines (fragment pre (some (lang, ph)) pairs post) =
        pairs.map (fun e => "· ".data ++ e.2.1 ++ " ".data ++ e.2.2) := by
      rw [explainLines_eq hes, List.map_map]
      rfl
    rw [parse_bing_response_data, hphonpart, hexplains]
    rw [if_neg (by
      simp only [Bool.and_eq_true, List.isEmpty_iff]
      rintro ⟨-, hnil⟩
      simp at hnil)]
    rw [popNewline_cons]
    rfl
  | none =>
    have hpairs_ne : pairs ≠ [] := by
      rcases hne with h | h
      · exact absurd rfl h
      · exact h
    have hfrag : fragment pre none pairs post =
        pre ++ ((pairs.map pairBlock).flatten ++ post) := by
      simp [fragment, List.append_assoc]
    have hps : phoneticSearch (fragment pre none pairs post) = none := by
      rw [hfrag, phoneticSearch_skip_clean hpre]
      exact phoneticSearch_blocks_none hpairs hpost
    have hes : explainAll (fragment pre none pairs post) =
        pairs.map (fun e => (e.2.1, e.2.2)) := by
      rw [hfrag, explainAll_congr (explainSearch_skip_clean hpre)]
      exact explainAll_blocks hpairs hpost
    have hexplains : explainLines (fragment pre none pairs post) =
        pairs.map (fun e => "· ".data ++ e.2.1 ++ " ".data ++ e.2.2) := by
      rw [explainLines_eq hes, List.map_map]
      rfl
    rw [parse_bing_response_data, phonPart_eq_none hps, hexplains]
    rw [if_neg (by
      simp only [Bool.and_eq_true, List.isEmpty_iff]
      rintro ⟨hnil, -⟩
      exact hpairs_ne (List.map_eq_nil_iff.mp hnil))]
    rw [List.nil_append,
      popNewline_flatten (fun hnil => hpairs_ne (List.map_eq_nil_iff.mp hnil))]
    rfl

/-- Witness for C3: a fragment with filler text, a phonetic span (the spec's
end-to-end scenario 1 phonetic) and one pos/trs pair parses to exactly two
`"· "`-prefixed lines with no trailing newline. -/
theorem c3_witness :
    parse_bing_response (String.mk (fragment "hello ".data
        (some ("en-us".data, "h ə ˈ l oʊ".data))
        [(" ".data, "int.".data, "hello".data)] " tail".data)) =
      some "· [h ə ˈ l oʊ]\n· int. hello" :=
  c3_parse_wellformed_fragment "hello ".data " tail".data
    (some ("en-us".data, "h ə ˈ l oʊ".data))
    [(" ".data, "int.".data, "hello".data)]
    (by decide) (by decide) (by decide) (by decide) (by decide)
